import Mathlib

/-!
Verification of the Minesweeper AI engine (`src/minesweeper.py`).

The engine consists of a `Sentence` constraint type (a set of cells together
with a count of how many of them are mines) and a `MinesweeperAI` knowledge
base holding the moves made, the cells proven safe, the cells proven to be
mines, and an ordered list of sentences.  This file is a shallow embedding of
those two classes and of the operations `mark_mine`, `mark_safe`,
`add_knowledge`, `consolidate_cells`, `make_safe_move`, `make_random_move`,
`surrounding_cells` and `get_undiscovered_cells`.

Modelling conventions:
* A cell is a pair of integers `(row, column)`, as in the Python tuples.
* Python `set` becomes `Finset Cell`; Python `list` of sentences becomes
  `List Sentence` (order and duplicates matter for `consolidate_cells`).
* Python `int` becomes `Int` (counts may in principle go negative).
* A `for` loop over a set marks cells one by one; since `mark_safe`/`mark_mine`
  on distinct cells commute, the iteration order of the Python set is
  irrelevant to the final state, and the embedding folds over a canonically
  sorted list of the set's elements.
* CPython's `for` loop over a live list holds an internal index that advances
  by one each step even when elements are removed; the loops of
  `consolidate_cells` are embedded with that exact index semantics.
* `list.remove(x)` removes the first element equal (`__eq__`: same cells and
  same count) to `x` and raises `ValueError` when none exists; operations that
  can raise are embedded in `Option`, `none` standing for the raised exception.
* `idx1 is not idx2` on the small loop indexes of `consolidate_cells` behaves
  as integer inequality (CPython caches small ints), and is embedded as `≠`.
-/

/-- A board cell: a `(row, column)` pair of integers, as in the Python tuples. -/
abbrev Cell : Type := Int × Int

/-- Row-major lexicographic order on cells, used as the canonical iteration
order for Python's (order-irrelevant) set loops. -/
def cellLe (a b : Cell) : Prop := a.1 < b.1 ∨ (a.1 = b.1 ∧ a.2 ≤ b.2)

instance : DecidableRel cellLe := fun a b =>
  inferInstanceAs (Decidable (a.1 < b.1 ∨ (a.1 = b.1 ∧ a.2 ≤ b.2)))

instance : IsTrans Cell cellLe :=
  ⟨by intro a b c hab hbc; unfold cellLe at *; rcases hab with h | h <;> rcases hbc with h' | h' <;> omega⟩

instance : IsAntisymm Cell cellLe :=
  ⟨by
    intro a b hab hba
    obtain ⟨a1, a2⟩ := a
    obtain ⟨b1, b2⟩ := b
    unfold cellLe at *
    simp only [Prod.mk.injEq]
    dsimp only at hab hba
    omega⟩

instance : IsTotal Cell cellLe :=
  ⟨by intro a b; unfold cellLe; omega⟩

/-- Canonical list of the elements of a finite set of cells; stands in for
iterating a Python set whose element order is unspecified.  Insertion sort is
used (rather than `Finset.sort`, which is backed by a well-founded merge sort)
so that the whole engine evaluates by kernel reduction on concrete inputs. -/
def sortCells (s : Finset Cell) : List Cell :=
  Quotient.liftOn s.val (fun l => l.insertionSort cellLe)
    (fun _ _ h =>
      List.eq_of_perm_of_sorted
        (((List.perm_insertionSort cellLe _).trans h).trans
          (List.perm_insertionSort cellLe _).symm)
        (List.sorted_insertionSort cellLe _) (List.sorted_insertionSort cellLe _))

theorem mem_sortCells {s : Finset Cell} {c : Cell} : c ∈ sortCells s ↔ c ∈ s := by
  obtain ⟨⟨l⟩, hn⟩ := s
  exact ((List.perm_insertionSort cellLe l).mem_iff).trans Iff.rfl

theorem sortCells_nodup (s : Finset Cell) : (sortCells s).Nodup := by
  obtain ⟨⟨l⟩, hn⟩ := s
  exact (List.perm_insertionSort cellLe l).nodup_iff.mpr hn

/-- Python `class Sentence`: a set of board cells and a count of how many of those
cells are mines.  `__eq__` compares `cells` and `count`, which is Lean's
structural equality here. -/
structure Sentence where
  cells : Finset Cell
  count : Int
deriving DecidableEq

namespace Sentence

/-- Source `Sentence.mark_mine`: if `cell` is in the sentence, remove it and
decrement the count; otherwise do nothing. -/
def mark_mine (s : Sentence) (cell : Cell) : Sentence :=
  if cell ∈ s.cells then ⟨s.cells.erase cell, s.count - 1⟩ else s

/-- Source `Sentence.mark_safe`: if `cell` is in the sentence, remove it, leaving
the count unchanged; otherwise do nothing. -/
def mark_safe (s : Sentence) (cell : Cell) : Sentence :=
  if cell ∈ s.cells then ⟨s.cells.erase cell, s.count⟩ else s

theorem mark_safe_eq_erase (s : Sentence) (cell : Cell) :
    s.mark_safe cell = ⟨s.cells.erase cell, s.count⟩ := by
  unfold mark_safe
  split
  · rfl
  · rename_i h
    simp [Finset.erase_eq_of_not_mem h]

end Sentence

/-- The state of `class MinesweeperAI`: grid bounds, moves made, known mines,
known safes, and the list of sentences (`self.knowledge`). -/
structure MinesweeperAI where
  height : Nat
  width : Nat
  moves_made : Finset Cell
  mines : Finset Cell
  safes : Finset Cell
  knowledge : List Sentence
deriving DecidableEq

namespace MinesweeperAI

/-- Source `MinesweeperAI.__init__`: empty knowledge base for a `height × width` grid. -/
def init (height width : Nat) : MinesweeperAI :=
  { height := height
    width := width
    moves_made := ∅
    mines := ∅
    safes := ∅
    knowledge := [] }

/-- Source `MinesweeperAI.mark_mine`: add the cell to `mines` and propagate
`Sentence.mark_mine` to every sentence in `knowledge`. -/
def mark_mine (st : MinesweeperAI) (cell : Cell) : MinesweeperAI :=
  { st with
    mines := insert cell st.mines
    knowledge := st.knowledge.map (fun s => s.mark_mine cell) }

/-- Source `MinesweeperAI.mark_safe`: add the cell to `safes` and propagate
`Sentence.mark_safe` to every sentence in `knowledge`. -/
def mark_safe (st : MinesweeperAI) (cell : Cell) : MinesweeperAI :=
  { st with
    safes := insert cell st.safes
    knowledge := st.knowledge.map (fun s => s.mark_safe cell) }

/-- A `for` loop calling `self.mark_safe` on every cell of a set.  Single-cell
marks on distinct cells commute, so folding over the canonical order gives the
state produced by the Python loop for any set iteration order
(`foldl_mark_safe_eq` proves the result depends only on the set of cells). -/
def markSafeAll (st : MinesweeperAI) (cells : Finset Cell) : MinesweeperAI :=
  (sortCells cells).foldl mark_safe st

/-- A `for` loop calling `self.mark_mine` on every cell of a set
(`foldl_mark_mine_eq` proves the result is the same for every duplicate-free
iteration order). -/
def markMineAll (st : MinesweeperAI) (cells : Finset Cell) : MinesweeperAI :=
  (sortCells cells).foldl mark_mine st

/-- Source `MinesweeperAI.surrounding_cells`: the up-to-8 neighbors of `cell`,
filtered to the grid bounds (the four sequential `filter` calls of the source
combine into one conjunction). -/
def surrounding_cells (st : MinesweeperAI) (cell : Cell) : Finset Cell :=
  let row := cell.1
  let col := cell.2
  ({(row - 1, col - 1), (row, col - 1), (row + 1, col - 1), (row - 1, col),
    (row + 1, col), (row - 1, col + 1), (row, col + 1), (row + 1, col + 1)} : Finset Cell).filter
    (fun x => 0 ≤ x.1 ∧ x.1 < (st.height : Int) ∧ 0 ≤ x.2 ∧ x.2 < (st.width : Int))

end MinesweeperAI

/-- All cells of the `height × width` grid. -/
def gridCells (height width : Nat) : Finset Cell :=
  (Finset.range height ×ˢ Finset.range width).image
    (fun p => (((p.1 : Int), (p.2 : Int)) : Cell))

namespace MinesweeperAI

/-- Source `MinesweeperAI.get_undiscovered_cells`: every grid cell not in
`moves_made` (the source's nested `range` loops). -/
def get_undiscovered_cells (st : MinesweeperAI) : Finset Cell :=
  (gridCells st.height st.width).filter (fun c => c ∉ st.moves_made)

/-- Source `MinesweeperAI.make_safe_move`: pop an element of
`safes − moves_made` if non-empty, else `None`.  `set.pop` returns an
unspecified element of the freshly built difference set and mutates only that
local set; the embedding picks the canonically first element and returns the
(unchanged) state alongside the move. -/
def make_safe_move (st : MinesweeperAI) : Option Cell × MinesweeperAI :=
  ((sortCells (st.safes \ st.moves_made)).head?, st)

/-- Source `MinesweeperAI.make_random_move`: filter the undiscovered cells by
`not in self.mines` and return `None` when nothing is left, else an element of
the list.  `random.randint` picks an unspecified index; the embedding picks
the first element and returns the (unchanged) state alongside the move. -/
def make_random_move (st : MinesweeperAI) : Option Cell × MinesweeperAI :=
  (((sortCells st.get_undiscovered_cells).filter (fun c => c ∉ st.mines)).head?, st)

end MinesweeperAI

namespace MinesweeperAI

@[simp] theorem mark_safe_height (st : MinesweeperAI) (c : Cell) :
    (st.mark_safe c).height = st.height := rfl

@[simp] theorem mark_safe_width (st : MinesweeperAI) (c : Cell) :
    (st.mark_safe c).width = st.width := rfl

@[simp] theorem mark_safe_moves_made (st : MinesweeperAI) (c : Cell) :
    (st.mark_safe c).moves_made = st.moves_made := rfl

@[simp] theorem mark_safe_knowledge_length (st : MinesweeperAI) (c : Cell) :
    (st.mark_safe c).knowledge.length = st.knowledge.length := by
  simp [mark_safe]

@[simp] theorem mark_mine_height (st : MinesweeperAI) (c : Cell) :
    (st.mark_mine c).height = st.height := rfl

@[simp] theorem mark_mine_width (st : MinesweeperAI) (c : Cell) :
    (st.mark_mine c).width = st.width := rfl

@[simp] theorem mark_mine_moves_made (st : MinesweeperAI) (c : Cell) :
    (st.mark_mine c).moves_made = st.moves_made := rfl

@[simp] theorem mark_mine_knowledge_length (st : MinesweeperAI) (c : Cell) :
    (st.mark_mine c).knowledge.length = st.knowledge.length := by
  simp [mark_mine]

theorem foldl_mark_safe_knowledge_length (l : List Cell) (st : MinesweeperAI) :
    (l.foldl mark_safe st).knowledge.length = st.knowledge.length := by
  induction l generalizing st with
  | nil => rfl
  | cons c cs ih => simp [List.foldl_cons, ih]

theorem foldl_mark_mine_knowledge_length (l : List Cell) (st : MinesweeperAI) :
    (l.foldl mark_mine st).knowledge.length = st.knowledge.length := by
  induction l generalizing st with
  | nil => rfl
  | cons c cs ih => simp [List.foldl_cons, ih]

@[simp] theorem markSafeAll_knowledge_length (st : MinesweeperAI) (cells : Finset Cell) :
    (markSafeAll st cells).knowledge.length = st.knowledge.length :=
  foldl_mark_safe_knowledge_length _ st

@[simp] theorem markMineAll_knowledge_length (st : MinesweeperAI) (cells : Finset Cell) :
    (markMineAll st cells).knowledge.length = st.knowledge.length :=
  foldl_mark_mine_knowledge_length _ st

end MinesweeperAI


/-- Python `self.knowledge.remove(s)` after a successful presence check: remove the
first sentence equal to `s` (`Sentence.__eq__`, i.e. structural equality,
which is what `List.erase` uses here).  Callers guard the call with
`s ∈ st.knowledge`; when the check fails Python raises `ValueError`, which the
callers embed as `none`. -/
def MinesweeperAI.removeSentence (st : MinesweeperAI) (s : Sentence) : MinesweeperAI :=
  { st with knowledge := st.knowledge.erase s }

@[simp] theorem MinesweeperAI.removeSentence_knowledge (st : MinesweeperAI) (s : Sentence) :
    (st.removeSentence s).knowledge = st.knowledge.erase s := rfl

/-- Inside the subset-elimination loop, the Python variable `sentence1` is a
reference to a sentence object: while the object is still in `self.knowledge`
its current value is read from the list (left summand: its current index);
once it has been removed from the list its value is frozen (right summand). -/
def s1read (st : MinesweeperAI) : Nat ⊕ Sentence → Sentence
  | .inl p => st.knowledge.getD p ⟨∅, 0⟩
  | .inr v => v

/-- How `self.knowledge.remove(...)` at index `j` affects the tracked position
of the live `sentence1` object of value `v`: removal at its own index freezes
it, removal before it shifts it down one, removal after it leaves it alone. -/
def updTrack (t : Nat ⊕ Sentence) (j : Nat) (v : Sentence) : Nat ⊕ Sentence :=
  match t with
  | .inl p => if j = p then .inr v else if j < p then .inl (p - 1) else .inl p
  | .inr w => .inr w

/-- Fuel-indexed body of the first loop of `MinesweeperAI.consolidate_cells`
(self-resolution): `for idx, sentence in enumerate(self.knowledge)` over the
live list, with the CPython iterator index `i`.  Empty sentences are removed;
a sentence with `count == 0` has all its cells marked safe and is removed; a
sentence with `count == len(cells)` has all its cells marked mine and is
removed.  The value passed to `remove` in the latter two branches is the
current sentence object's value after the marks, i.e. the element now at index
`i` of the updated list (marking preserves list positions).

One unit of fuel is consumed per iteration.  Out of fuel the loop's terminal
result `some st` is returned; with the fuel supplied by `consolidateLoop1`
this case is only reached with `i ≥ st.knowledge.length`, because each
iteration consumes one unit of fuel while decreasing
`st.knowledge.length - i` by at least one (`consolidateLoop1Aux_fuel` makes
the resulting fuel-independence precise). -/
def consolidateLoop1Aux : Nat → MinesweeperAI → Nat → Option MinesweeperAI
  | 0, st, _ => some st
  | fuel + 1, st, i =>
    if h : i < st.knowledge.length then
      if (st.knowledge.get ⟨i, h⟩).cells.card = 0 then
        if st.knowledge.get ⟨i, h⟩ ∈ st.knowledge then
          consolidateLoop1Aux fuel (st.removeSentence (st.knowledge.get ⟨i, h⟩)) (i + 1)
        else none
      else if (st.knowledge.get ⟨i, h⟩).count = 0 then
        if (MinesweeperAI.markSafeAll st (st.knowledge.get ⟨i, h⟩).cells).knowledge.getD i ⟨∅, 0⟩ ∈
            (MinesweeperAI.markSafeAll st (st.knowledge.get ⟨i, h⟩).cells).knowledge then
          consolidateLoop1Aux fuel
            ((MinesweeperAI.markSafeAll st (st.knowledge.get ⟨i, h⟩).cells).removeSentence
              ((MinesweeperAI.markSafeAll st (st.knowledge.get ⟨i, h⟩).cells).knowledge.getD i ⟨∅, 0⟩))
            (i + 1)
        else none
      else if (st.knowledge.get ⟨i, h⟩).count = ((st.knowledge.get ⟨i, h⟩).cells.card : Int) then
        if (MinesweeperAI.markMineAll st (st.knowledge.get ⟨i, h⟩).cells).knowledge.getD i ⟨∅, 0⟩ ∈
            (MinesweeperAI.markMineAll st (st.knowledge.get ⟨i, h⟩).cells).knowledge then
          consolidateLoop1Aux fuel
            ((MinesweeperAI.markMineAll st (st.knowledge.get ⟨i, h⟩).cells).removeSentence
              ((MinesweeperAI.markMineAll st (st.knowledge.get ⟨i, h⟩).cells).knowledge.getD i ⟨∅, 0⟩))
            (i + 1)
        else none
      else consolidateLoop1Aux fuel st (i + 1)
    else some st

/-- First loop of `MinesweeperAI.consolidate_cells`, starting at iterator
index `i`, with enough fuel for every remaining iteration. -/
def consolidateLoop1 (st : MinesweeperAI) (i : Nat) : Option MinesweeperAI :=
  consolidateLoop1Aux (st.knowledge.length - i) st i

/-- Fuel-indexed inner loop of the subset-elimination pass of
`MinesweeperAI.consolidate_cells`: `for idx2, sentence2 in
enumerate(self.knowledge)` with CPython iterator index `i2`, for a fixed outer
sentence object `sentence1` (tracked by `t`, captured enumeration index
`idx1`).  If `sentence1.cells ⊆ sentence2.cells`: equal cell sets remove the
first element equal to `sentence1` and continue; equal counts mark the
difference `sentence2.cells − sentence1.cells` safe and remove `sentence1`;
a difference whose size equals the count difference (and is positive) marks
the difference as mines.  Fuel as in `consolidateLoop1Aux`. -/
def consolidateLoop2InnerAux :
    Nat → MinesweeperAI → (Nat ⊕ Sentence) → Nat → Nat → Option MinesweeperAI
  | 0, st, _, _, _ => some st
  | fuel + 1, st, t, idx1, i2 =>
    if h : i2 < st.knowledge.length then
      if idx1 ≠ i2 then
        if (s1read st t).cells ⊆ (st.knowledge.get ⟨i2, h⟩).cells then
          if (s1read st t).cells = (st.knowledge.get ⟨i2, h⟩).cells then
            if s1read st t ∈ st.knowledge then
              consolidateLoop2InnerAux fuel (st.removeSentence (s1read st t))
                (updTrack t (st.knowledge.indexOf (s1read st t)) (s1read st t)) idx1 (i2 + 1)
            else none
          else if (s1read st t).count = (st.knowledge.get ⟨i2, h⟩).count then
            if s1read (MinesweeperAI.markSafeAll st
                  ((st.knowledge.get ⟨i2, h⟩).cells \ (s1read st t).cells)) t ∈
                (MinesweeperAI.markSafeAll st
                  ((st.knowledge.get ⟨i2, h⟩).cells \ (s1read st t).cells)).knowledge then
              consolidateLoop2InnerAux fuel
                ((MinesweeperAI.markSafeAll st
                    ((st.knowledge.get ⟨i2, h⟩).cells \ (s1read st t).cells)).removeSentence
                  (s1read (MinesweeperAI.markSafeAll st
                    ((st.knowledge.get ⟨i2, h⟩).cells \ (s1read st t).cells)) t))
                (updTrack t
                  ((MinesweeperAI.markSafeAll st
                      ((st.knowledge.get ⟨i2, h⟩).cells \ (s1read st t).cells)).knowledge.indexOf
                    (s1read (MinesweeperAI.markSafeAll st
                      ((st.knowledge.get ⟨i2, h⟩).cells \ (s1read st t).cells)) t))
                  (s1read (MinesweeperAI.markSafeAll st
                    ((st.knowledge.get ⟨i2, h⟩).cells \ (s1read st t).cells)) t))
                idx1 (i2 + 1)
            else none
          else if (((st.knowledge.get ⟨i2, h⟩).cells \ (s1read st t).cells).card : Int) =
                (st.knowledge.get ⟨i2, h⟩).count - (s1read st t).count ∧
              0 < ((st.knowledge.get ⟨i2, h⟩).cells \ (s1read st t).cells).card then
            consolidateLoop2InnerAux fuel
              (MinesweeperAI.markMineAll st
                ((st.knowledge.get ⟨i2, h⟩).cells \ (s1read st t).cells)) t idx1 (i2 + 1)
          else consolidateLoop2InnerAux fuel st t idx1 (i2 + 1)
        else consolidateLoop2InnerAux fuel st t idx1 (i2 + 1)
      else consolidateLoop2InnerAux fuel st t idx1 (i2 + 1)
    else some st

/-- Inner loop of the subset-elimination pass, starting at inner iterator
index `i2`, with enough fuel for every remaining iteration. -/
def consolidateLoop2Inner (st : MinesweeperAI) (t : Nat ⊕ Sentence) (idx1 i2 : Nat) :
    Option MinesweeperAI :=
  consolidateLoop2InnerAux (st.knowledge.length - i2) st t idx1 i2

/-- Fuel-indexed outer loop of the subset-elimination pass: `for idx1,
sentence1 in enumerate(self.knowledge)` with CPython iterator index `i1`;
each step runs the inner loop from index `0` for the sentence object currently
at index `i1`.  Fuel as in `consolidateLoop1Aux` (the inner loop never grows
the list, so `st.knowledge.length - i1` keeps decreasing). -/
def consolidateLoop2Aux : Nat → MinesweeperAI → Nat → Option MinesweeperAI
  | 0, st, _ => some st
  | fuel + 1, st, i1 =>
    if i1 < st.knowledge.length then
      match consolidateLoop2Inner st (.inl i1) i1 0 with
      | none => none
      | some st' => consolidateLoop2Aux fuel st' (i1 + 1)
    else some st

/-- Outer loop of the subset-elimination pass, starting at iterator index
`i1`, with enough fuel for every remaining iteration. -/
def consolidateLoop2 (st : MinesweeperAI) (i1 : Nat) : Option MinesweeperAI :=
  consolidateLoop2Aux (st.knowledge.length - i1) st i1

/-- Source `MinesweeperAI.consolidate_cells`: the self-resolution pass followed by
the subset-elimination pass.  The trailing `popping_indexes` block of the
source is dead code (the list is provably always empty there) and contributes
nothing. -/
def MinesweeperAI.consolidate_cells (st : MinesweeperAI) : Option MinesweeperAI :=
  match consolidateLoop1 st 0 with
  | none => none
  | some st1 => consolidateLoop2 st1 0

/-- Source `MinesweeperAI.add_knowledge`: record the move, mark the revealed cell
safe, and ingest the clue `count` for the in-bounds neighbors, in the source's
order: (a) if the neighbor count equals `count`, mark every neighbor a mine;
(b) if `count == 0`, mark every neighbor safe; then partition the neighbors by
the current `safes`/`mines`, and if some neighbors are undiscovered and the
remaining count is positive, either mark them all mines (when the remaining
count equals their number) or append the new sentence; finally consolidate. -/
def MinesweeperAI.add_knowledge (st : MinesweeperAI) (cell : Cell) (count : Int) :
    Option MinesweeperAI :=
  let st1 : MinesweeperAI := { st with moves_made := insert cell st.moves_made }
  let st2 := st1.mark_safe cell
  -- `self.surrounding_cells(cell)` reads only the grid bounds, which no
  -- operation changes; `st.surrounding_cells cell` is definitionally the same
  let surr := st.surrounding_cells cell
  let st3 := if (surr.card : Int) = count then MinesweeperAI.markMineAll st2 surr else st2
  let st4 := if count = 0 then MinesweeperAI.markSafeAll st3 surr else st3
  let dssc := st4.safes ∩ surr
  let dsmc := st4.mines ∩ surr
  let undisc := (surr \ dssc) \ dsmc
  let usmc := count - (dsmc.card : Int)
  let st5 :=
    if 0 < undisc.card ∧ 0 < usmc then
      if (undisc.card : Int) = usmc then MinesweeperAI.markMineAll st4 undisc
      else { st4 with knowledge := st4.knowledge ++ [⟨undisc, usmc⟩] }
    else st4
  st5.consolidate_cells

/-- A sequence of `add_knowledge` calls, as issued by the external driver. -/
def runMoves (st : MinesweeperAI) (moves : List (Cell × Int)) : Option MinesweeperAI :=
  moves.foldlM (fun s m => s.add_knowledge m.1 m.2) st

theorem sortCells_toFinset (s : Finset Cell) : (sortCells s).toFinset = s := by
  ext c
  simp [List.mem_toFinset, mem_sortCells]

theorem sortCells_eq_nil_iff {s : Finset Cell} : sortCells s = [] ↔ s = ∅ := by
  constructor
  · intro h
    apply Finset.eq_empty_iff_forall_not_mem.mpr
    intro c hc
    have := mem_sortCells.mpr hc
    simp [h] at this
  · intro h
    subst h
    rfl

namespace MinesweeperAI

theorem foldl_mark_safe_eq (l : List Cell) (st : MinesweeperAI) :
    l.foldl mark_safe st =
      { st with
        safes := st.safes ∪ l.toFinset
        knowledge := st.knowledge.map (fun s => ⟨s.cells \ l.toFinset, s.count⟩) } := by
  induction l generalizing st with
  | nil =>
    simp only [List.foldl_nil, List.toFinset_nil, Finset.union_empty, Finset.sdiff_empty]
    cases st with
    | mk height width moves_made mines safes knowledge =>
      simp [List.map_id']
  | cons c cs ih =>
    simp only [List.foldl_cons]
    rw [ih]
    cases st with
    | mk height width moves_made mines safes knowledge =>
      simp only [mark_safe, List.toFinset_cons, List.map_map, MinesweeperAI.mk.injEq,
        true_and, and_true, heq_eq_eq]
      constructor
      · ext a
        simp
      · apply List.map_congr_left
        intro s _
        simp only [Function.comp_apply, Sentence.mark_safe_eq_erase, Sentence.mk.injEq, and_true]
        ext a
        simp [Finset.mem_erase]
        tauto

/-- The effect of marking every cell of a set safe: the set joins `safes` and
is removed from every sentence. -/
theorem markSafeAll_eq (st : MinesweeperAI) (X : Finset Cell) :
    markSafeAll st X =
      { st with
        safes := st.safes ∪ X
        knowledge := st.knowledge.map (fun s => ⟨s.cells \ X, s.count⟩) } := by
  unfold markSafeAll
  rw [foldl_mark_safe_eq, sortCells_toFinset]

theorem foldl_mark_mine_eq (l : List Cell) (hl : l.Nodup) (st : MinesweeperAI) :
    l.foldl mark_mine st =
      { st with
        mines := st.mines ∪ l.toFinset
        knowledge := st.knowledge.map
          (fun s => ⟨s.cells \ l.toFinset, s.count - ((s.cells ∩ l.toFinset).card : Int)⟩) } := by
  induction l generalizing st with
  | nil =>
    simp only [List.foldl_nil, List.toFinset_nil, Finset.union_empty, Finset.sdiff_empty,
      Finset.inter_empty, Finset.card_empty]
    cases st with
    | mk height width moves_made mines safes knowledge =>
      simp [List.map_id']
  | cons c cs ih =>
    obtain ⟨hc, hcs⟩ := List.nodup_cons.mp hl
    simp only [List.foldl_cons]
    rw [ih hcs]
    cases st with
    | mk height width moves_made mines safes knowledge =>
      simp only [mark_mine, List.toFinset_cons, List.map_map, MinesweeperAI.mk.injEq,
        true_and, and_true, heq_eq_eq]
      constructor
      · ext a
        simp
      · apply List.map_congr_left
        intro s _
        simp only [Function.comp_apply, Sentence.mark_mine]
        have hcis : c ∉ cs.toFinset := by simpa using hc
        by_cases hmem : c ∈ s.cells
        · simp only [if_pos hmem, Sentence.mk.injEq]
          constructor
          · ext a
            simp [Finset.mem_erase]
            tauto
          · have h1 : s.cells ∩ insert c cs.toFinset = insert c (s.cells.erase c ∩ cs.toFinset) := by
              ext a
              simp [Finset.mem_erase]
              by_cases ha : a = c <;> simp [ha, hmem]
            have h2 : c ∉ s.cells.erase c ∩ cs.toFinset := by
              simp [Finset.mem_erase]
            rw [h1, Finset.card_insert_of_not_mem h2]
            push_cast
            ring
        · simp only [if_neg hmem, Sentence.mk.injEq]
          constructor
          · ext a
            simp
            by_cases ha : a = c <;> simp [ha, hmem]
          · have h1 : s.cells ∩ insert c cs.toFinset = s.cells ∩ cs.toFinset := by
              ext a
              by_cases ha : a = c <;> simp [ha, hmem]
            rw [h1]

/-- The effect of marking every cell of a set as a mine: the set joins
`mines`, is removed from every sentence, and each sentence's count drops by
the number of its cells that were marked. -/
theorem markMineAll_eq (st : MinesweeperAI) (X : Finset Cell) :
    markMineAll st X =
      { st with
        mines := st.mines ∪ X
        knowledge := st.knowledge.map
          (fun s => ⟨s.cells \ X, s.count - ((s.cells ∩ X).card : Int)⟩) } := by
  unfold markMineAll
  rw [foldl_mark_mine_eq _ (sortCells_nodup X), sortCells_toFinset]

end MinesweeperAI

/-- A sentence is true of a mine set `B` when exactly `count` of its cells lie
in `B`. -/
def sentenceTrue (B : Finset Cell) (s : Sentence) : Prop :=
  ((s.cells ∩ B).card : Int) = s.count

/-- Soundness invariant of the knowledge base with respect to the fixed mine
set `B` of the external board: every proven-safe cell is not a mine, every
proven mine is one, every stored sentence is true of `B`, and no stored
sentence mentions a cell already resolved safe or mine. -/
def boardInv (B : Finset Cell) (st : MinesweeperAI) : Prop :=
  (∀ a ∈ st.safes, a ∉ B) ∧ (∀ a ∈ st.mines, a ∈ B) ∧
    ∀ s ∈ st.knowledge, sentenceTrue B s ∧ ∀ a ∈ s.cells, a ∉ st.safes ∧ a ∉ st.mines

theorem sentenceTrue_sdiff_safe {B X : Finset Cell} (hX : ∀ a ∈ X, a ∉ B) {s : Sentence}
    (h : sentenceTrue B s) : sentenceTrue B ⟨s.cells \ X, s.count⟩ := by
  unfold sentenceTrue at *
  have : (s.cells \ X) ∩ B = s.cells ∩ B := by
    ext a
    simp only [Finset.mem_inter, Finset.mem_sdiff, and_assoc]
    constructor
    · tauto
    · intro ⟨h1, h2⟩
      exact ⟨h1, fun hx => hX a hx h2, h2⟩
  rw [this]
  simpa using h

theorem sentenceTrue_sdiff_mine {B X : Finset Cell} (hX : ∀ a ∈ X, a ∈ B) {s : Sentence}
    (h : sentenceTrue B s) :
    sentenceTrue B ⟨s.cells \ X, s.count - ((s.cells ∩ X).card : Int)⟩ := by
  unfold sentenceTrue at *
  have hsub : s.cells ∩ X ⊆ s.cells ∩ B := by
    intro a ha
    simp only [Finset.mem_inter] at *
    exact ⟨ha.1, hX a ha.2⟩
  have hset : (s.cells ∩ B) \ (s.cells ∩ X) = (s.cells \ X) ∩ B := by
    ext a
    simp only [Finset.mem_inter, Finset.mem_sdiff, not_and]
    constructor
    · intro ⟨⟨h1, h2⟩, h3⟩
      exact ⟨⟨h1, fun hx => absurd (h3 h1) (not_not_intro hx)⟩, h2⟩
    · tauto
  have hcard := Finset.card_sdiff hsub
  rw [hset] at hcard
  have hle := Finset.card_le_card hsub
  simp only
  omega

/-- The count split of a true sentence pair with nested cell sets: the
contained sentence and the difference account for the mines of the larger. -/
theorem card_inter_split {a b B : Finset Cell} (hab : a ⊆ b) :
    (b ∩ B).card = (a ∩ B).card + ((b \ a) ∩ B).card := by
  have hdisj : Disjoint (a ∩ B) ((b \ a) ∩ B) := by
    apply Finset.disjoint_left.mpr
    intro x hx hx'
    simp only [Finset.mem_inter, Finset.mem_sdiff] at hx hx'
    exact hx'.1.2 hx.1
  have hun : b ∩ B = (a ∩ B) ∪ ((b \ a) ∩ B) := by
    ext x
    simp only [Finset.mem_inter, Finset.mem_union, Finset.mem_sdiff]
    constructor
    · intro ⟨h1, h2⟩
      by_cases hxa : x ∈ a
      · exact Or.inl ⟨hxa, h2⟩
      · exact Or.inr ⟨⟨h1, hxa⟩, h2⟩
    · rintro (⟨h1, h2⟩ | ⟨⟨h1, _⟩, h2⟩)
      · exact ⟨hab h1, h2⟩
      · exact ⟨h1, h2⟩
  rw [hun, Finset.card_union_of_disjoint hdisj]

namespace MinesweeperAI

theorem boardInv_markSafeAll {B : Finset Cell} {st : MinesweeperAI} {X : Finset Cell}
    (h : boardInv B st) (hX : ∀ a ∈ X, a ∉ B) : boardInv B (markSafeAll st X) := by
  obtain ⟨h1, h2, h3⟩ := h
  rw [markSafeAll_eq]
  refine ⟨?_, h2, ?_⟩
  · intro a ha
    rcases Finset.mem_union.mp ha with ha | ha
    · exact h1 a ha
    · exact hX a ha
  · intro s' hs'
    obtain ⟨s, hs, rfl⟩ := List.mem_map.mp hs'
    obtain ⟨hst, hcl⟩ := h3 s hs
    refine ⟨sentenceTrue_sdiff_safe hX hst, ?_⟩
    intro a ha
    obtain ⟨hac, hax⟩ := Finset.mem_sdiff.mp ha
    obtain ⟨has, ham⟩ := hcl a hac
    constructor
    · intro hu
      rcases Finset.mem_union.mp hu with hu | hu
      · exact has hu
      · exact hax hu
    · exact ham

theorem boardInv_markMineAll {B : Finset Cell} {st : MinesweeperAI} {X : Finset Cell}
    (h : boardInv B st) (hX : ∀ a ∈ X, a ∈ B) : boardInv B (markMineAll st X) := by
  obtain ⟨h1, h2, h3⟩ := h
  rw [markMineAll_eq]
  refine ⟨h1, ?_, ?_⟩
  · intro a ha
    rcases Finset.mem_union.mp ha with ha | ha
    · exact h2 a ha
    · exact hX a ha
  · intro s' hs'
    obtain ⟨s, hs, rfl⟩ := List.mem_map.mp hs'
    obtain ⟨hst, hcl⟩ := h3 s hs
    refine ⟨sentenceTrue_sdiff_mine hX hst, ?_⟩
    intro a ha
    obtain ⟨hac, hax⟩ := Finset.mem_sdiff.mp ha
    obtain ⟨has, ham⟩ := hcl a hac
    refine ⟨has, ?_⟩
    intro hu
    rcases Finset.mem_union.mp hu with hu | hu
    · exact ham hu
    · exact hax hu

theorem mark_safe_eq_markSafeAll (st : MinesweeperAI) (c : Cell) :
    st.mark_safe c = markSafeAll st {c} := by
  rw [markSafeAll_eq]
  unfold mark_safe
  simp only [MinesweeperAI.mk.injEq, true_and, and_true, heq_eq_eq]
  constructor
  · ext a
    simp [or_comm]
  · apply List.map_congr_left
    intro s _
    rw [Sentence.mark_safe_eq_erase, Finset.erase_eq]

theorem mark_mine_eq_markMineAll (st : MinesweeperAI) (c : Cell) :
    st.mark_mine c = markMineAll st {c} := by
  rw [markMineAll_eq]
  unfold mark_mine
  simp only [MinesweeperAI.mk.injEq, true_and, and_true, heq_eq_eq]
  constructor
  · ext a
    simp [or_comm]
  · apply List.map_congr_left
    intro s _
    unfold Sentence.mark_mine
    by_cases hc : c ∈ s.cells
    · have : s.cells ∩ {c} = {c} := by
        ext a
        simp only [Finset.mem_inter, Finset.mem_singleton]
        constructor
        · tauto
        · rintro rfl
          exact ⟨hc, rfl⟩
      simp [hc, this, Finset.erase_eq]
    · have : s.cells ∩ {c} = ∅ := by
        ext a
        simp only [Finset.mem_inter, Finset.mem_singleton, Finset.not_mem_empty, iff_false, not_and]
        rintro ha rfl
        exact hc ha
      have h2 : s.cells \ {c} = s.cells := by
        ext a
        simp only [Finset.mem_sdiff, Finset.mem_singleton, and_iff_left_iff_imp]
        rintro ha rfl
        exact hc ha
      simp [hc, this, h2]

theorem boardInv_mark_safe {B : Finset Cell} {st : MinesweeperAI} {c : Cell}
    (h : boardInv B st) (hc : c ∉ B) : boardInv B (st.mark_safe c) := by
  rw [mark_safe_eq_markSafeAll]
  exact boardInv_markSafeAll h (by simpa using hc)

theorem boardInv_mark_mine {B : Finset Cell} {st : MinesweeperAI} {c : Cell}
    (h : boardInv B st) (hc : c ∈ B) : boardInv B (st.mark_mine c) := by
  rw [mark_mine_eq_markMineAll]
  exact boardInv_markMineAll h (by simpa using hc)

theorem boardInv_removeSentence {B : Finset Cell} {st : MinesweeperAI} {s : Sentence}
    (h : boardInv B st) : boardInv B (st.removeSentence s) := by
  obtain ⟨h1, h2, h3⟩ := h
  exact ⟨h1, h2, fun s' hs' => h3 s' (List.mem_of_mem_erase hs')⟩

theorem boardInv_getD_true {B : Finset Cell} {st : MinesweeperAI} (p : Nat)
    (h : boardInv B st) : sentenceTrue B (st.knowledge.getD p ⟨∅, 0⟩) := by
  by_cases hp : p < st.knowledge.length
  · rw [List.getD_eq_getElem _ _ hp]
    exact ((h.2.2) _ (List.getElem_mem hp)).1
  · rw [List.getD_eq_default _ _ (Nat.le_of_not_lt hp)]
    simp [sentenceTrue]

end MinesweeperAI

theorem s1read_true {B : Finset Cell} {st2 st : MinesweeperAI} {t : Nat ⊕ Sentence}
    (h2 : boardInv B st2) (h : sentenceTrue B (s1read st t)) :
    sentenceTrue B (s1read st2 t) := by
  cases t with
  | inl p => exact MinesweeperAI.boardInv_getD_true p h2
  | inr v => exact h

theorem s1read_updTrack_true {B : Finset Cell} {st2 st : MinesweeperAI} {t : Nat ⊕ Sentence}
    {j : Nat} {v : Sentence} (h2 : boardInv B st2) (hv : sentenceTrue B v)
    (ht : sentenceTrue B (s1read st t)) :
    sentenceTrue B (s1read st2 (updTrack t j v)) := by
  cases t with
  | inl p =>
    unfold updTrack
    by_cases hj : j = p
    · simpa [hj, s1read] using hv
    · by_cases hjp : j < p <;>
        simp only [hj, hjp, if_true, if_false] <;>
        exact MinesweeperAI.boardInv_getD_true _ h2
  | inr w => exact ht

theorem cells_not_mine_of_count_zero {B : Finset Cell} {s : Sentence}
    (ht : sentenceTrue B s) (h0 : s.count = 0) : ∀ a ∈ s.cells, a ∉ B := by
  unfold sentenceTrue at ht
  rw [h0] at ht
  have hemp : s.cells ∩ B = ∅ := Finset.card_eq_zero.mp (by exact_mod_cast ht)
  intro a ha haB
  have : a ∈ s.cells ∩ B := Finset.mem_inter.mpr ⟨ha, haB⟩
  simp [hemp] at this

theorem cells_mine_of_count_card {B : Finset Cell} {s : Sentence}
    (ht : sentenceTrue B s) (hc : s.count = (s.cells.card : Int)) : ∀ a ∈ s.cells, a ∈ B := by
  unfold sentenceTrue at ht
  rw [hc] at ht
  have hcard : (s.cells ∩ B).card = s.cells.card := by exact_mod_cast ht
  have heq : s.cells ∩ B = s.cells :=
    Finset.eq_of_subset_of_card_le Finset.inter_subset_left (le_of_eq hcard.symm)
  intro a ha
  have : a ∈ s.cells ∩ B := heq.symm ▸ ha
  exact (Finset.mem_inter.mp this).2

theorem diff_not_mine_of_counts_eq {B : Finset Cell} {s1 s2 : Sentence}
    (h1 : sentenceTrue B s1) (h2 : sentenceTrue B s2) (hsub : s1.cells ⊆ s2.cells)
    (hcnt : s1.count = s2.count) : ∀ a ∈ s2.cells \ s1.cells, a ∉ B := by
  unfold sentenceTrue at h1 h2
  have hsplit := @card_inter_split _ _ B hsub
  have hzero : ((s2.cells \ s1.cells) ∩ B).card = 0 := by omega
  have hemp : (s2.cells \ s1.cells) ∩ B = ∅ := Finset.card_eq_zero.mp hzero
  intro a ha haB
  have : a ∈ (s2.cells \ s1.cells) ∩ B := Finset.mem_inter.mpr ⟨ha, haB⟩
  simp [hemp] at this

theorem diff_mine_of_count_gap {B : Finset Cell} {s1 s2 : Sentence}
    (h1 : sentenceTrue B s1) (h2 : sentenceTrue B s2) (hsub : s1.cells ⊆ s2.cells)
    (hgap : (((s2.cells \ s1.cells).card : Int)) = s2.count - s1.count) :
    ∀ a ∈ s2.cells \ s1.cells, a ∈ B := by
  unfold sentenceTrue at h1 h2
  have hsplit := @card_inter_split _ _ B hsub
  have hcard : ((s2.cells \ s1.cells) ∩ B).card = (s2.cells \ s1.cells).card := by omega
  have heq : (s2.cells \ s1.cells) ∩ B = s2.cells \ s1.cells :=
    Finset.eq_of_subset_of_card_le Finset.inter_subset_left (le_of_eq hcard.symm)
  intro a ha
  have : a ∈ (s2.cells \ s1.cells) ∩ B := heq.symm ▸ ha
  exact (Finset.mem_inter.mp this).2

theorem consolidateLoop1Aux_inv {B : Finset Cell} :
    ∀ (fuel : Nat) (st : MinesweeperAI) (i : Nat) (st' : MinesweeperAI),
      boardInv B st → consolidateLoop1Aux fuel st i = some st' → boardInv B st' := by
  intro fuel
  induction fuel with
  | zero =>
    intro st i st' h he
    simp only [consolidateLoop1Aux, Option.some.injEq] at he
    exact he ▸ h
  | succ fuel ih =>
    intro st i st' h he
    simp only [consolidateLoop1Aux] at he
    split at he
    · rename_i hlt
      have hsget := (h.2.2) _ (List.get_mem st.knowledge i hlt)
      split at he
      · rename_i hcard
        split at he
        · exact ih _ _ _ (MinesweeperAI.boardInv_removeSentence h) he
        · exact Option.noConfusion he
      · rename_i hcard
        split at he
        · rename_i hcnt
          split at he
          · refine ih _ _ _ ?_ he
            apply MinesweeperAI.boardInv_removeSentence
            exact MinesweeperAI.boardInv_markSafeAll h
              (cells_not_mine_of_count_zero hsget.1 hcnt)
          · exact Option.noConfusion he
        · rename_i hcnt
          split at he
          · rename_i hcc
            split at he
            · refine ih _ _ _ ?_ he
              apply MinesweeperAI.boardInv_removeSentence
              exact MinesweeperAI.boardInv_markMineAll h
                (cells_mine_of_count_card hsget.1 hcc)
            · exact Option.noConfusion he
          · exact ih _ _ _ h he
    · rename_i hge
      simp only [Option.some.injEq] at he
      exact he ▸ h

theorem consolidateLoop2InnerAux_inv {B : Finset Cell} :
    ∀ (fuel : Nat) (st : MinesweeperAI) (t : Nat ⊕ Sentence) (idx1 i2 : Nat)
      (st' : MinesweeperAI), boardInv B st → sentenceTrue B (s1read st t) →
      consolidateLoop2InnerAux fuel st t idx1 i2 = some st' → boardInv B st' := by
  intro fuel
  induction fuel with
  | zero =>
    intro st t idx1 i2 st' h ht he
    simp only [consolidateLoop2InnerAux, Option.some.injEq] at he
    exact he ▸ h
  | succ fuel ih =>
    intro st t idx1 i2 st' h ht he
    simp only [consolidateLoop2InnerAux] at he
    split at he
    · rename_i hlt
      have hs2 := (h.2.2) _ (List.get_mem st.knowledge i2 hlt)
      split at he
      · rename_i hne
        split at he
        · rename_i hsub
          split at he
          · rename_i hceq
            split at he
            · rename_i hm
              refine ih _ _ _ _ _ (MinesweeperAI.boardInv_removeSentence h) ?_ he
              exact s1read_updTrack_true (MinesweeperAI.boardInv_removeSentence h) ht ht
            · exact Option.noConfusion he
          · rename_i hceq
            split at he
            · rename_i hcnt
              split at he
              · rename_i hm
                have hdiff := diff_not_mine_of_counts_eq ht hs2.1 hsub hcnt
                have hmarked : boardInv B (MinesweeperAI.markSafeAll st
                    ((st.knowledge.get ⟨i2, hlt⟩).cells \ (s1read st t).cells)) :=
                  MinesweeperAI.boardInv_markSafeAll h hdiff
                refine ih _ _ _ _ _ (MinesweeperAI.boardInv_removeSentence hmarked) ?_ he
                exact s1read_updTrack_true (MinesweeperAI.boardInv_removeSentence hmarked)
                  (s1read_true hmarked ht) ht
              · exact Option.noConfusion he
            · rename_i hcnt
              split at he
              · rename_i hgap
                have hdiff := diff_mine_of_count_gap ht hs2.1 hsub hgap.1
                refine ih _ _ _ _ _ (MinesweeperAI.boardInv_markMineAll h hdiff) ?_ he
                exact s1read_true (MinesweeperAI.boardInv_markMineAll h hdiff) ht
              · exact ih _ _ _ _ _ h ht he
        · exact ih _ _ _ _ _ h ht he
      · exact ih _ _ _ _ _ h ht he
    · rename_i hge
      simp only [Option.some.injEq] at he
      exact he ▸ h

@[simp] theorem s1read_inl (st : MinesweeperAI) (p : Nat) :
    s1read st (.inl p) = st.knowledge.getD p ⟨∅, 0⟩ := rfl

@[simp] theorem s1read_inr (st : MinesweeperAI) (v : Sentence) :
    s1read st (.inr v) = v := rfl

theorem consolidateLoop2Aux_inv {B : Finset Cell} :
    ∀ (fuel : Nat) (st : MinesweeperAI) (i1 : Nat) (st' : MinesweeperAI),
      boardInv B st → consolidateLoop2Aux fuel st i1 = some st' → boardInv B st' := by
  intro fuel
  induction fuel with
  | zero =>
    intro st i1 st' h he
    simp only [consolidateLoop2Aux, Option.some.injEq] at he
    exact he ▸ h
  | succ fuel ih =>
    intro st i1 st' h he
    simp only [consolidateLoop2Aux] at he
    split at he
    · rename_i hlt
      split at he
      · exact Option.noConfusion he
      · rename_i st1 hinner
        refine ih _ _ _ ?_ he
        exact consolidateLoop2InnerAux_inv _ _ _ _ _ _ h
          ((s1read_inl st i1).symm ▸ MinesweeperAI.boardInv_getD_true i1 h) hinner
    · simp only [Option.some.injEq] at he
      exact he ▸ h

theorem consolidate_cells_inv {B : Finset Cell} {st st' : MinesweeperAI}
    (h : boardInv B st) (he : st.consolidate_cells = some st') : boardInv B st' := by
  unfold MinesweeperAI.consolidate_cells at he
  split at he
  · exact Option.noConfusion he
  · rename_i st1 h1
    exact consolidateLoop2Aux_inv _ _ _ _ (consolidateLoop1Aux_inv _ _ _ _ h h1) he

theorem forall_mem_of_inter_card_eq_card {X B : Finset Cell} (h : (X ∩ B).card = X.card) :
    ∀ a ∈ X, a ∈ B := by
  have heq : X ∩ B = X :=
    Finset.eq_of_subset_of_card_le Finset.inter_subset_left (le_of_eq h.symm)
  intro a ha
  have : a ∈ X ∩ B := heq.symm ▸ ha
  exact (Finset.mem_inter.mp this).2

theorem forall_not_mem_of_inter_card_zero {X B : Finset Cell} (h : (X ∩ B).card = 0) :
    ∀ a ∈ X, a ∉ B := by
  have hemp : X ∩ B = ∅ := Finset.card_eq_zero.mp h
  intro a ha haB
  have : a ∈ X ∩ B := Finset.mem_inter.mpr ⟨ha, haB⟩
  simp [hemp] at this

theorem boardInv_moves_update {B : Finset Cell} {st : MinesweeperAI} {M : Finset Cell}
    (h : boardInv B st) : boardInv B { st with moves_made := M } := h

/-- The undiscovered neighbors hold exactly the still-unaccounted mines of the
clue: with sound `safes`/`mines`, the set `unknown = neighbors − known_safe −
known_mine` meets `B` in exactly `count − |known_mine|` cells. -/
theorem undiscovered_count {B surr safes mines : Finset Cell}
    (hsafes : ∀ a ∈ safes, a ∉ B) (hmines : ∀ a ∈ mines, a ∈ B) :
    (((((surr \ (safes ∩ surr)) \ (mines ∩ surr)) ∩ B).card : Int)) =
      ((surr ∩ B).card : Int) - ((mines ∩ surr).card : Int) := by
  have hset : ((surr \ (safes ∩ surr)) \ (mines ∩ surr)) ∩ B = (surr ∩ B) \ (mines ∩ surr) := by
    ext a
    simp only [Finset.mem_inter, Finset.mem_sdiff]
    constructor
    · rintro ⟨⟨⟨h1, _⟩, h3⟩, h4⟩
      exact ⟨⟨h1, h4⟩, h3⟩
    · rintro ⟨⟨h1, h2⟩, h3⟩
      exact ⟨⟨⟨h1, fun hc => hsafes a hc.1 h2⟩, h3⟩, h2⟩
  have hsub : mines ∩ surr ⊆ surr ∩ B := by
    intro a ha
    obtain ⟨h1, h2⟩ := Finset.mem_inter.mp ha
    exact Finset.mem_inter.mpr ⟨h2, hmines a h1⟩
  have hcard := Finset.card_sdiff hsub
  have hle := Finset.card_le_card hsub
  rw [hset]
  omega

/-- Step 4-5 of `add_knowledge` preserves the soundness invariant: marking all
undiscovered neighbors as mines when the remaining count matches their number,
or appending the new sentence, is sound for a true clue. -/
theorem boardInv_step5 {B : Finset Cell} {st4 : MinesweeperAI} {surr : Finset Cell} {count : Int}
    (h4 : boardInv B st4) (hcnt : count = ((surr ∩ B).card : Int)) :
    boardInv B
      (if 0 < (((surr \ (st4.safes ∩ surr)) \ (st4.mines ∩ surr))).card ∧
          0 < count - (((st4.mines ∩ surr)).card : Int) then
        if ((((surr \ (st4.safes ∩ surr)) \ (st4.mines ∩ surr))).card : Int) =
            count - (((st4.mines ∩ surr)).card : Int) then
          MinesweeperAI.markMineAll st4 ((surr \ (st4.safes ∩ surr)) \ (st4.mines ∩ surr))
        else
          { st4 with knowledge := st4.knowledge ++
              [⟨(surr \ (st4.safes ∩ surr)) \ (st4.mines ∩ surr),
                count - (((st4.mines ∩ surr)).card : Int)⟩] }
      else st4) := by
  obtain ⟨hs, hm, hk⟩ := h4
  have hund := @undiscovered_count B surr _ _ hs hm
  split
  · rename_i hcond1
    split
    · rename_i hcond2
      apply MinesweeperAI.boardInv_markMineAll ⟨hs, hm, hk⟩
      apply forall_mem_of_inter_card_eq_card
      omega
    · rename_i hcond2
      refine ⟨hs, hm, ?_⟩
      intro s hsmem
      rcases List.mem_append.mp hsmem with hold | hnew
      · exact hk s hold
      · have hseq : s = ⟨(surr \ (st4.safes ∩ surr)) \ (st4.mines ∩ surr),
            count - (((st4.mines ∩ surr)).card : Int)⟩ := by
          simpa using hnew
        subst hseq
        constructor
        · unfold sentenceTrue
          simp only
          omega
        · intro a ha
          simp only [Finset.mem_sdiff, Finset.mem_inter] at ha
          obtain ⟨⟨ha1, ha2⟩, ha3⟩ := ha
          exact ⟨fun hsa => ha2 ⟨hsa, ha1⟩, fun hma => ha3 ⟨hma, ha1⟩⟩
  · exact ⟨hs, hm, hk⟩

theorem add_knowledge_inv {B : Finset Cell} {st : MinesweeperAI} {cell : Cell} {count : Int}
    {st' : MinesweeperAI} (h : boardInv B st) (hcell : cell ∉ B)
    (hcount : count = (((st.surrounding_cells cell) ∩ B).card : Int))
    (he : st.add_knowledge cell count = some st') : boardInv B st' := by
  unfold MinesweeperAI.add_knowledge at he
  simp only [] at he
  have h2 : boardInv B (({ st with moves_made := insert cell st.moves_made} :
      MinesweeperAI).mark_safe cell) :=
    MinesweeperAI.boardInv_mark_safe (boardInv_moves_update h) hcell
  apply consolidate_cells_inv ?_ he
  by_cases hc3 : (((st.surrounding_cells cell).card : Int)) = count
  · simp only [if_pos hc3]
    by_cases hc4 : count = 0
    · simp only [if_pos hc4]
      have h3 : boardInv B (MinesweeperAI.markMineAll _ (st.surrounding_cells cell)) :=
        MinesweeperAI.boardInv_markMineAll h2
          (forall_mem_of_inter_card_eq_card (by omega))
      exact boardInv_step5 (MinesweeperAI.boardInv_markSafeAll h3
        (forall_not_mem_of_inter_card_zero (by omega))) hcount
    · simp only [if_neg hc4]
      exact boardInv_step5 (MinesweeperAI.boardInv_markMineAll h2
        (forall_mem_of_inter_card_eq_card (by omega))) hcount
  · simp only [if_neg hc3]
    by_cases hc4 : count = 0
    · simp only [if_pos hc4]
      exact boardInv_step5 (MinesweeperAI.boardInv_markSafeAll h2
        (forall_not_mem_of_inter_card_zero (by omega))) hcount
    · simp only [if_neg hc4]
      exact boardInv_step5 h2 hcount

/-- The three fact sets only ever grow. -/
def setsGrow (st st' : MinesweeperAI) : Prop :=
  st.moves_made ⊆ st'.moves_made ∧ st.mines ⊆ st'.mines ∧ st.safes ⊆ st'.safes

theorem setsGrow_refl (st : MinesweeperAI) : setsGrow st st :=
  ⟨subset_rfl, subset_rfl, subset_rfl⟩

theorem setsGrow_trans {a b c : MinesweeperAI} (h1 : setsGrow a b) (h2 : setsGrow b c) :
    setsGrow a c :=
  ⟨h1.1.trans h2.1, h1.2.1.trans h2.2.1, h1.2.2.trans h2.2.2⟩

namespace MinesweeperAI

theorem setsGrow_mark_safe (st : MinesweeperAI) (c : Cell) : setsGrow st (st.mark_safe c) :=
  ⟨subset_rfl, subset_rfl, Finset.subset_insert c st.safes⟩

theorem setsGrow_mark_mine (st : MinesweeperAI) (c : Cell) : setsGrow st (st.mark_mine c) :=
  ⟨subset_rfl, Finset.subset_insert c st.mines, subset_rfl⟩

theorem setsGrow_markSafeAll (st : MinesweeperAI) (X : Finset Cell) :
    setsGrow st (markSafeAll st X) := by
  rw [markSafeAll_eq]
  exact ⟨subset_rfl, subset_rfl, Finset.subset_union_left⟩

theorem setsGrow_markMineAll (st : MinesweeperAI) (X : Finset Cell) :
    setsGrow st (markMineAll st X) := by
  rw [markMineAll_eq]
  exact ⟨subset_rfl, Finset.subset_union_left, subset_rfl⟩

theorem setsGrow_removeSentence (st : MinesweeperAI) (s : Sentence) :
    setsGrow st (st.removeSentence s) :=
  setsGrow_refl _

end MinesweeperAI

theorem consolidateLoop1Aux_setsGrow :
    ∀ (fuel : Nat) (st : MinesweeperAI) (i : Nat) (st' : MinesweeperAI),
      consolidateLoop1Aux fuel st i = some st' → setsGrow st st' := by
  intro fuel
  induction fuel with
  | zero =>
    intro st i st' he
    simp only [consolidateLoop1Aux, Option.some.injEq] at he
    exact he ▸ setsGrow_refl st
  | succ fuel ih =>
    intro st i st' he
    simp only [consolidateLoop1Aux] at he
    split at he
    · split at he
      · split at he
        · exact setsGrow_trans (MinesweeperAI.setsGrow_removeSentence _ _) (ih _ _ _ he)
        · exact Option.noConfusion he
      · split at he
        · split at he
          · exact setsGrow_trans
              (setsGrow_trans (MinesweeperAI.setsGrow_markSafeAll _ _)
                (MinesweeperAI.setsGrow_removeSentence _ _))
              (ih _ _ _ he)
          · exact Option.noConfusion he
        · split at he
          · split at he
            · exact setsGrow_trans
                (setsGrow_trans (MinesweeperAI.setsGrow_markMineAll _ _)
                  (MinesweeperAI.setsGrow_removeSentence _ _))
                (ih _ _ _ he)
            · exact Option.noConfusion he
          · exact ih _ _ _ he
    · simp only [Option.some.injEq] at he
      exact he ▸ setsGrow_refl st

theorem consolidateLoop2InnerAux_setsGrow :
    ∀ (fuel : Nat) (st : MinesweeperAI) (t : Nat ⊕ Sentence) (idx1 i2 : Nat)
      (st' : MinesweeperAI),
      consolidateLoop2InnerAux fuel st t idx1 i2 = some st' → setsGrow st st' := by
  intro fuel
  induction fuel with
  | zero =>
    intro st t idx1 i2 st' he
    simp only [consolidateLoop2InnerAux, Option.some.injEq] at he
    exact he ▸ setsGrow_refl st
  | succ fuel ih =>
    intro st t idx1 i2 st' he
    simp only [consolidateLoop2InnerAux] at he
    split at he
    · split at he
      · split at he
        · split at he
          · split at he
            · exact setsGrow_trans (MinesweeperAI.setsGrow_removeSentence _ _)
                (ih _ _ _ _ _ he)
            · exact Option.noConfusion he
          · split at he
            · split at he
              · exact setsGrow_trans
                  (setsGrow_trans (MinesweeperAI.setsGrow_markSafeAll _ _)
                    (MinesweeperAI.setsGrow_removeSentence _ _))
                  (ih _ _ _ _ _ he)
              · exact Option.noConfusion he
            · split at he
              · exact setsGrow_trans (MinesweeperAI.setsGrow_markMineAll _ _)
                  (ih _ _ _ _ _ he)
              · exact ih _ _ _ _ _ he
        · exact ih _ _ _ _ _ he
      · exact ih _ _ _ _ _ he
    · simp only [Option.some.injEq] at he
      exact he ▸ setsGrow_refl st

theorem consolidateLoop2Aux_setsGrow :
    ∀ (fuel : Nat) (st : MinesweeperAI) (i1 : Nat) (st' : MinesweeperAI),
      consolidateLoop2Aux fuel st i1 = some st' → setsGrow st st' := by
  intro fuel
  induction fuel with
  | zero =>
    intro st i1 st' he
    simp only [consolidateLoop2Aux, Option.some.injEq] at he
    exact he ▸ setsGrow_refl st
  | succ fuel ih =>
    intro st i1 st' he
    simp only [consolidateLoop2Aux] at he
    split at he
    · split at he
      · exact Option.noConfusion he
      · rename_i st1 hinner
        exact setsGrow_trans (consolidateLoop2InnerAux_setsGrow _ _ _ _ _ _ hinner)
          (ih _ _ _ he)
    · simp only [Option.some.injEq] at he
      exact he ▸ setsGrow_refl st

theorem consolidate_cells_setsGrow {st st' : MinesweeperAI}
    (he : st.consolidate_cells = some st') : setsGrow st st' := by
  unfold MinesweeperAI.consolidate_cells at he
  split at he
  · exact Option.noConfusion he
  · rename_i st1 h1
    exact setsGrow_trans (consolidateLoop1Aux_setsGrow _ _ _ _ h1)
      (consolidateLoop2Aux_setsGrow _ _ _ _ he)

theorem setsGrow_step5 {st4 : MinesweeperAI} {surr : Finset Cell} {count : Int} :
    setsGrow st4
      (if 0 < (((surr \ (st4.safes ∩ surr)) \ (st4.mines ∩ surr))).card ∧
          0 < count - (((st4.mines ∩ surr)).card : Int) then
        if ((((surr \ (st4.safes ∩ surr)) \ (st4.mines ∩ surr))).card : Int) =
            count - (((st4.mines ∩ surr)).card : Int) then
          MinesweeperAI.markMineAll st4 ((surr \ (st4.safes ∩ surr)) \ (st4.mines ∩ surr))
        else
          { st4 with knowledge := st4.knowledge ++
              [⟨(surr \ (st4.safes ∩ surr)) \ (st4.mines ∩ surr),
                count - (((st4.mines ∩ surr)).card : Int)⟩] }
      else st4) := by
  split
  · split
    · exact MinesweeperAI.setsGrow_markMineAll _ _
    · exact ⟨subset_rfl, subset_rfl, subset_rfl⟩
  · exact setsGrow_refl _

theorem add_knowledge_setsGrow {st : MinesweeperAI} {cell : Cell} {count : Int}
    {st' : MinesweeperAI} (he : st.add_knowledge cell count = some st') : setsGrow st st' := by
  unfold MinesweeperAI.add_knowledge at he
  simp only [] at he
  refine setsGrow_trans ?_ (consolidate_cells_setsGrow he)
  have g1 : setsGrow st { st with moves_made := insert cell st.moves_made } :=
    ⟨Finset.subset_insert _ _, subset_rfl, subset_rfl⟩
  refine setsGrow_trans (setsGrow_trans g1 (MinesweeperAI.setsGrow_mark_safe _ cell)) ?_
  by_cases hc3 : (((st.surrounding_cells cell).card : Int)) = count
  · simp only [if_pos hc3]
    by_cases hc4 : count = 0
    · simp only [if_pos hc4]
      exact setsGrow_trans (MinesweeperAI.setsGrow_markMineAll _ _)
        (setsGrow_trans (MinesweeperAI.setsGrow_markSafeAll _ _) setsGrow_step5)
    · simp only [if_neg hc4]
      exact setsGrow_trans (MinesweeperAI.setsGrow_markMineAll _ _) setsGrow_step5
  · simp only [if_neg hc3]
    by_cases hc4 : count = 0
    · simp only [if_pos hc4]
      exact setsGrow_trans (MinesweeperAI.setsGrow_markSafeAll _ _) setsGrow_step5
    · simp only [if_neg hc4]
      exact setsGrow_step5

/-- The true clue for a revealed cell: the number of in-bounds neighbors of
`cell` that are mines of the fixed board mine set `B` (what
`Minesweeper.nearby_mines` reports for a board whose mines are `B`). -/
def trueClueCount (B : Finset Cell) (st : MinesweeperAI) (cell : Cell) : Int :=
  (((st.surrounding_cells cell) ∩ B).card : Int)

/-- The knowledge-base states reachable from a fresh `MinesweeperAI` by
`add_knowledge` calls whose preconditions hold for the fixed mine set `B`:
each revealed cell is not a mine and each clue is the true adjacent-mine
count. -/
inductive Reach (B : Finset Cell) (height width : Nat) : MinesweeperAI → Prop
  | init : Reach B height width (MinesweeperAI.init height width)
  | step {st st' : MinesweeperAI} {cell : Cell} {count : Int} :
      Reach B height width st → cell ∉ B → count = trueClueCount B st cell →
      st.add_knowledge cell count = some st' → Reach B height width st'

theorem reach_boardInv {B : Finset Cell} {h w : Nat} {st : MinesweeperAI}
    (hr : Reach B h w st) : boardInv B st := by
  induction hr with
  | init =>
    refine ⟨?_, ?_, ?_⟩ <;> simp [MinesweeperAI.init, boardInv]
  | step hr hcell hcount he ih =>
    exact add_knowledge_inv ih hcell hcount he

/-- Field-wise evaluation principle for concrete engine runs: the derived
structure equality instance does not reduce well on deeply computed states,
but each projected field does; six field checks give the state equality. -/
theorem eval_state_eq {o : Option MinesweeperAI} {w : MinesweeperAI}
    (h : o.map (fun st => decide (st.height = w.height ∧ st.width = w.width ∧
      st.moves_made = w.moves_made ∧ st.mines = w.mines ∧ st.safes = w.safes ∧
      st.knowledge = w.knowledge)) = some true) : o = some w := by
  cases o with
  | none =>
    simp only [Option.map_none'] at h
    exact Option.noConfusion h
  | some st =>
    simp only [Option.map_some', Option.some.injEq, decide_eq_true_eq] at h
    obtain ⟨h1, h2, h3, h4, h5, h6⟩ := h
    have hw : st = w := by
      cases st
      cases w
      simp_all
    rw [hw]

/-- State of the engine after `add_knowledge((2,0), 0)` on a fresh 3×3 grid
(true clue for a board whose only mine is `(0,0)`). -/
def stW1 : MinesweeperAI :=
  ⟨3, 3, {(2, 0)}, ∅, {(1, 0), (1, 1), (2, 0), (2, 1)}, []⟩

/-- State of the engine after `add_knowledge((2,0), 0)` and
`add_knowledge((1,0), 1)` on a fresh 3×3 grid (true clues for a board whose
only mine is `(0,0)`); its knowledge holds the sentence `{(0,0),(0,1)} = 1`. -/
def stW2 : MinesweeperAI :=
  ⟨3, 3, {(1, 0), (2, 0)}, ∅, {(1, 0), (1, 1), (2, 0), (2, 1)}, [⟨{(0, 0), (0, 1)}, 1⟩]⟩

theorem reachW2 : Reach {((0 : Int), (0 : Int))} 3 3 stW2 :=
  @Reach.step {((0 : Int), (0 : Int))} 3 3 stW1 stW2 ((1 : Int), (0 : Int)) 1
    (@Reach.step {((0 : Int), (0 : Int))} 3 3 (MinesweeperAI.init 3 3) stW1
      ((2 : Int), (0 : Int)) 0 Reach.init (by decide) (by decide) (eval_state_eq (by decide)))
    (by decide) (by decide) (eval_state_eq (by decide))

/-- C3: for every state of the knowledge base reachable from the initial
state by a sequence of `add_knowledge` calls whose preconditions hold (each
revealed cell is not a mine and each count is the true adjacent-mine count of
one fixed board), the sets `safes` and `mines` are disjoint. -/
theorem C3_safes_mines_disjoint (B : Finset Cell) (height width : Nat)
    (st : MinesweeperAI) (hr : Reach B height width st) :
    st.safes ∩ st.mines = ∅ := by
  obtain ⟨h1, h2, _⟩ := reach_boardInv hr
  ext a
  simp only [Finset.mem_inter, Finset.not_mem_empty, iff_false, not_and]
  intro ha hm
  exact h1 a ha (h2 a hm)

/-- Witness for C3 at a concrete reachable state with non-trivial knowledge. -/
theorem C3_safes_mines_disjoint_witness : stW2.safes ∩ stW2.mines = ∅ :=
  C3_safes_mines_disjoint {((0 : Int), (0 : Int))} 3 3 stW2 reachW2

/-- C5: for every reachable state of the knowledge base and every sentence
currently stored in the knowledge list, `0 ≤ count ≤ |cells|` holds, and no
cell of the sentence's cell set is a member of `safes` or of `mines`. -/
theorem C5_sentences_wellformed (B : Finset Cell) (height width : Nat)
    (st : MinesweeperAI) (hr : Reach B height width st) :
    ∀ s ∈ st.knowledge, (0 ≤ s.count ∧ s.count ≤ (s.cells.card : Int)) ∧
      s.cells ∩ st.safes = ∅ ∧ s.cells ∩ st.mines = ∅ := by
  obtain ⟨h1, h2, h3⟩ := reach_boardInv hr
  intro s hs
  obtain ⟨ht, hcl⟩ := h3 s hs
  unfold sentenceTrue at ht
  have hle : (s.cells ∩ B).card ≤ s.cells.card := Finset.card_le_card Finset.inter_subset_left
  refine ⟨⟨by omega, by omega⟩, ?_, ?_⟩
  · ext a
    simp only [Finset.mem_inter, Finset.not_mem_empty, iff_false, not_and]
    intro ha hsafe
    exact (hcl a ha).1 hsafe
  · ext a
    simp only [Finset.mem_inter, Finset.not_mem_empty, iff_false, not_and]
    intro ha hmine
    exact (hcl a ha).2 hmine

/-- Witness for C5 at a concrete reachable state holding one sentence. -/
theorem C5_sentences_wellformed_witness :
    (0 ≤ (1 : Int) ∧ (1 : Int) ≤ ((({(0, 0), (0, 1)} : Finset Cell)).card : Int)) ∧
      ({(0, 0), (0, 1)} : Finset Cell) ∩ stW2.safes = ∅ ∧
      ({(0, 0), (0, 1)} : Finset Cell) ∩ stW2.mines = ∅ :=
  C5_sentences_wellformed {((0 : Int), (0 : Int))} 3 3 stW2 reachW2
    ⟨{(0, 0), (0, 1)}, 1⟩ (by decide)

theorem Sentence.mark_safe_idem (s : Sentence) (c : Cell) :
    (s.mark_safe c).mark_safe c = s.mark_safe c := by
  simp [Sentence.mark_safe_eq_erase, Finset.erase_idem]

theorem Sentence.mark_mine_idem (s : Sentence) (c : Cell) :
    (s.mark_mine c).mark_mine c = s.mark_mine c := by
  unfold Sentence.mark_mine
  by_cases h : c ∈ s.cells
  · simp [h, Finset.not_mem_erase]
  · simp [h]

/-- C6: the knowledge-base operations `mark_mine` and `mark_safe` are
idempotent: calling either twice with the same cell yields exactly the same
state (`moves_made`, `safes`, `mines`, and every sentence's `cells` and
`count`) as calling it once; in particular the second call decrements no
sentence's count. -/
theorem C6_mark_idempotent (st : MinesweeperAI) (c : Cell) :
    (st.mark_mine c).mark_mine c = st.mark_mine c ∧
      (st.mark_safe c).mark_safe c = st.mark_safe c := by
  constructor
  · unfold MinesweeperAI.mark_mine
    simp only [List.map_map, Finset.insert_idem]
    congr 1
    apply List.map_congr_left
    intro s _
    exact Sentence.mark_mine_idem s c
  · unfold MinesweeperAI.mark_safe
    simp only [List.map_map, Finset.insert_idem]
    congr 1
    apply List.map_congr_left
    intro s _
    exact Sentence.mark_safe_idem s c

/-- C7: `make_safe_move` returns some element of `safes − moves_made` when
that set is non-empty and `None` when it is empty, and leaves the entire
knowledge-base state unchanged. -/
theorem C7_make_safe_move_spec (st : MinesweeperAI) :
    (st.make_safe_move).2 = st ∧
      ((st.make_safe_move).1 = none ↔ st.safes \ st.moves_made = ∅) ∧
      ∀ c, (st.make_safe_move).1 = some c → c ∈ st.safes \ st.moves_made := by
  refine ⟨rfl, ?_, ?_⟩
  · unfold MinesweeperAI.make_safe_move
    simp only
    rw [List.head?_eq_none_iff, sortCells_eq_nil_iff]
  · intro c hc
    unfold MinesweeperAI.make_safe_move at hc
    simp only at hc
    have : c ∈ sortCells (st.safes \ st.moves_made) :=
      List.mem_of_mem_head? (Option.mem_def.mpr hc)
    exact mem_sortCells.mp this

/-- Witness state for C7: one known-safe unplayed cell. -/
def stC7 : MinesweeperAI := ⟨2, 2, ∅, ∅, {(0, 0)}, []⟩

/-- Witness for C7: at `stC7` the returned move is an element of
`safes − moves_made` and the state is untouched. -/
theorem C7_make_safe_move_spec_witness :
    (stC7.make_safe_move).2 = stC7 ∧ ((0 : Int), (0 : Int)) ∈ stC7.safes \ stC7.moves_made :=
  ⟨(C7_make_safe_move_spec stC7).1,
    (C7_make_safe_move_spec stC7).2.2 ((0 : Int), (0 : Int)) (by decide)⟩

/-- C8: `make_random_move` returns `None` exactly when
`(all grid cells) − moves_made − mines` is empty, and otherwise a member of
that set; in particular it never returns a known mine or an already played
cell. -/
theorem C8_make_random_move_spec (st : MinesweeperAI) :
    ((st.make_random_move).1 = none ↔
        (gridCells st.height st.width \ st.moves_made) \ st.mines = ∅) ∧
      ∀ c, (st.make_random_move).1 = some c →
        c ∈ (gridCells st.height st.width \ st.moves_made) \ st.mines := by
  have hmem : ∀ c, c ∈ (sortCells st.get_undiscovered_cells).filter
      (fun c => c ∉ st.mines) ↔
      c ∈ (gridCells st.height st.width \ st.moves_made) \ st.mines := by
    intro c
    simp only [List.mem_filter, mem_sortCells, MinesweeperAI.get_undiscovered_cells,
      Finset.mem_filter, Finset.mem_sdiff, decide_eq_true_eq]
  constructor
  · unfold MinesweeperAI.make_random_move
    simp only
    rw [List.head?_eq_none_iff]
    constructor
    · intro h
      apply Finset.eq_empty_iff_forall_not_mem.mpr
      intro c hc
      have h2 := (hmem c).mpr hc
      rw [h] at h2
      exact absurd h2 (List.not_mem_nil c)
    · intro h
      apply List.eq_nil_iff_forall_not_mem.mpr
      intro c hcmem
      have h2 := (hmem c).mp hcmem
      rw [h] at h2
      exact absurd h2 (Finset.not_mem_empty c)
  · intro c hc
    unfold MinesweeperAI.make_random_move at hc
    simp only at hc
    exact (hmem c).mp (List.mem_of_mem_head? (Option.mem_def.mpr hc))

/-- Witness for C8: on a fresh 1×1 grid the move returned is the single grid
cell, which is neither a known mine nor an already played cell. -/
theorem C8_make_random_move_spec_witness :
    ((0 : Int), (0 : Int)) ∈
      (gridCells (MinesweeperAI.init 1 1).height (MinesweeperAI.init 1 1).width \
        (MinesweeperAI.init 1 1).moves_made) \ (MinesweeperAI.init 1 1).mines :=
  (C8_make_random_move_spec (MinesweeperAI.init 1 1)).2 ((0 : Int), (0 : Int)) (by decide)

/-- C9: the sets `moves_made`, `safes`, and `mines` grow monotonically under
every engine operation — `mark_mine`, `mark_safe`, `add_knowledge`,
`consolidate_cells` (whenever they return a state), while `make_safe_move`
and `make_random_move` leave the state unchanged — no operation ever removes
a cell from any of the three sets. -/
theorem C9_monotone (st st1 st2 : MinesweeperAI) (c : Cell) (n : Int)
    (h1 : st.add_knowledge c n = some st1) (h2 : st.consolidate_cells = some st2) :
    (st.moves_made ⊆ (st.mark_mine c).moves_made ∧ st.mines ⊆ (st.mark_mine c).mines ∧
        st.safes ⊆ (st.mark_mine c).safes) ∧
      (st.moves_made ⊆ (st.mark_safe c).moves_made ∧ st.mines ⊆ (st.mark_safe c).mines ∧
        st.safes ⊆ (st.mark_safe c).safes) ∧
      (st.moves_made ⊆ st1.moves_made ∧ st.mines ⊆ st1.mines ∧ st.safes ⊆ st1.safes) ∧
      (st.moves_made ⊆ st2.moves_made ∧ st.mines ⊆ st2.mines ∧ st.safes ⊆ st2.safes) ∧
      (st.make_safe_move).2 = st ∧ (st.make_random_move).2 = st :=
  ⟨MinesweeperAI.setsGrow_mark_mine st c, MinesweeperAI.setsGrow_mark_safe st c,
    add_knowledge_setsGrow h1, consolidate_cells_setsGrow h2, rfl, rfl⟩

/-- State of a fresh 2×2 engine after `add_knowledge((0,0), 0)`. -/
def stC9 : MinesweeperAI := ⟨2, 2, {(0, 0)}, ∅, {(0, 0), (0, 1), (1, 0), (1, 1)}, []⟩

/-- Witness for C9: with a successful `add_knowledge` and `consolidate_cells`
on a concrete state, the safe set is preserved into the successor state. -/
theorem C9_monotone_witness : (MinesweeperAI.init 2 2).safes ⊆ stC9.safes :=
  ((C9_monotone (MinesweeperAI.init 2 2) stC9 (MinesweeperAI.init 2 2) ((0 : Int), (0 : Int)) 0
      (eval_state_eq (by decide)) (by decide)).2.2.1).2.2

/-- The fixed board mine set used for the C1 run: mines at `(0,0)` and
`(0,2)` on the 3×3 grid. -/
def BC1 : Finset Cell := {(0, 0), (0, 2)}

/-- C1 run, state 3: after revealing `(2,0):0`, `(1,0):1`, `(2,1):0`. -/
def stC1c : MinesweeperAI :=
  ⟨3, 3, {(1, 0), (2, 0), (2, 1)}, ∅,
    {(1, 0), (1, 1), (1, 2), (2, 0), (2, 1), (2, 2)}, [⟨{(0, 0), (0, 1)}, 1⟩]⟩

/-- C1 run, state 4: after also revealing `(2,2):0`. -/
def stC1d : MinesweeperAI :=
  ⟨3, 3, {(1, 0), (2, 0), (2, 1), (2, 2)}, ∅,
    {(1, 0), (1, 1), (1, 2), (2, 0), (2, 1), (2, 2)}, [⟨{(0, 0), (0, 1)}, 1⟩]⟩

/-- C1 run, state 5: after also revealing `(1,1):2`; subset elimination has
proven the mine at `(0,2)`, while `(0,1)` is still undetermined. -/
def stC1e : MinesweeperAI :=
  ⟨3, 3, {(1, 0), (1, 1), (2, 0), (2, 1), (2, 2)}, {(0, 2)},
    {(1, 0), (1, 1), (1, 2), (2, 0), (2, 1), (2, 2)}, [⟨{(0, 0), (0, 1)}, 1⟩]⟩

/-- C1 run, final state: after the closing `add_knowledge((1,2), 1)` call. -/
def stC1f : MinesweeperAI :=
  ⟨3, 3, {(1, 0), (1, 1), (1, 2), (2, 0), (2, 1), (2, 2)}, {(0, 2)},
    {(1, 0), (1, 1), (1, 2), (2, 0), (2, 1), (2, 2)}, [⟨{(0, 0), (0, 1)}, 1⟩]⟩

theorem reach_stC1e : Reach BC1 3 3 stC1e :=
  @Reach.step BC1 3 3 stC1d stC1e ((1 : Int), (1 : Int)) 2
    (@Reach.step BC1 3 3 stC1c stC1d ((2 : Int), (2 : Int)) 0
      (@Reach.step BC1 3 3 stW2 stC1c ((2 : Int), (1 : Int)) 0
        (@Reach.step BC1 3 3 stW1 stW2 ((1 : Int), (0 : Int)) 1
          (@Reach.step BC1 3 3 (MinesweeperAI.init 3 3) stW1 ((2 : Int), (0 : Int)) 0
            Reach.init (by decide) (by decide) (eval_state_eq (by decide)))
          (by decide) (by decide) (eval_state_eq (by decide)))
        (by decide) (by decide) (eval_state_eq (by decide)))
      (by decide) (by decide) (eval_state_eq (by decide)))
    (by decide) (by decide) (eval_state_eq (by decide))

/-- C1: the claim fails on the code — `add_knowledge` has no
`remaining == 0` branch.  The state `stC1e` is reachable by `add_knowledge`
calls whose preconditions hold for the board `BC1`; the closing call
`add_knowledge((1,2), 1)` satisfies the preconditions ((1,2) is not a mine
and 1 is its true adjacent-mine count), its neighbor partition leaves the
non-empty unknown set `{(0,1)}` with `remaining = count − |known_mine| = 0`,
yet `(0,1)` is not in `safes` afterwards: the code records nothing in this
case (its step-4 guard requires `remaining > 0`), where the spec requires
`mark_safe` on every unknown neighbor. -/
theorem C1_remaining_zero_not_marked_safe :
    Reach BC1 3 3 stC1e ∧
      ((1 : Int), (2 : Int)) ∉ BC1 ∧
      (1 : Int) = trueClueCount BC1 stC1e (1, 2) ∧
      stC1e.add_knowledge (1, 2) 1 = some stC1f ∧
      ((stC1e.surrounding_cells (1, 2) \ (stC1e.safes ∩ stC1e.surrounding_cells (1, 2))) \
          (stC1e.mines ∩ stC1e.surrounding_cells (1, 2))) = {((0 : Int), (1 : Int))} ∧
      (1 : Int) - ((stC1e.mines ∩ stC1e.surrounding_cells (1, 2)).card : Int) = 0 ∧
      ((0 : Int), (1 : Int)) ∉ stC1f.safes :=
  ⟨reach_stC1e, by decide, by decide, eval_state_eq (by decide), by decide, by decide, by decide⟩

/-- Knowledge base holding the two sentences `{(0,0),(0,1),(0,2)} = 2` and
`{(0,0),(0,1)} = 1`; subset elimination applies to the pair. -/
def stC2 : MinesweeperAI :=
  ⟨3, 3, ∅, ∅, ∅, [⟨{(0, 0), (0, 1), (0, 2)}, 2⟩, ⟨{(0, 0), (0, 1)}, 1⟩]⟩

/-- Result of one `consolidate_cells` call on `stC2`: the mine `(0,2)` is
found, but the two sentences have collapsed into equal duplicates that the
single pass does not reconcile. -/
def stC2a : MinesweeperAI :=
  ⟨3, 3, ∅, {(0, 2)}, ∅, [⟨{(0, 0), (0, 1)}, 1⟩, ⟨{(0, 0), (0, 1)}, 1⟩]⟩

/-- Result of a second `consolidate_cells` call: the duplicate sentence is
now removed, so the state changed again. -/
def stC2b : MinesweeperAI :=
  ⟨3, 3, ∅, {(0, 2)}, ∅, [⟨{(0, 0), (0, 1)}, 1⟩]⟩

/-- C2: the claim fails on the code — `consolidate_cells` is a single pass,
not a fixpoint loop.  On the knowledge base `stC2` one run yields `stC2a`
(with a duplicate sentence left behind by the subset-elimination scan), and
immediately re-running `consolidate_cells` changes the knowledge base again
(the duplicate is removed), so consolidation is not idempotent. -/
theorem C2_consolidate_not_idempotent :
    stC2.consolidate_cells = some stC2a ∧ stC2a.consolidate_cells = some stC2b ∧
      stC2a ≠ stC2b := by
  refine ⟨?_, ?_, by decide⟩
  · exact eval_state_eq (by decide)
  · exact eval_state_eq (by decide)

/-- Result of `add_knowledge((2,2), 0)` on a fresh 3×3 engine. -/
def stC4 : MinesweeperAI := ⟨3, 3, {(2, 2)}, ∅, {(1, 1), (1, 2), (2, 1), (2, 2)}, []⟩

/-- C4 counterexample: on the 3×3 grid with a single mine at `(0,0)`, the
clue for `(2,2)` is 0, and `add_knowledge((2,2), 0)` on a fresh knowledge
base does NOT mark all 8 other cells safe: the cells `(0,0)` and `(0,1)`
(among others) are not in `safes`. -/
theorem C4_scenario_counterexample :
    (0 : Int) = trueClueCount {((0 : Int), (0 : Int))} (MinesweeperAI.init 3 3) (2, 2) ∧
      (MinesweeperAI.init 3 3).add_knowledge (2, 2) 0 = some stC4 ∧
      ((0 : Int), (0 : Int)) ∉ stC4.safes ∧ ((0 : Int), (1 : Int)) ∉ stC4.safes :=
  ⟨by decide, eval_state_eq (by decide), by decide, by decide⟩

/-- C4 amended: `add_knowledge((2,2), 0)` on a fresh 3×3 knowledge base marks
exactly the three in-bounds neighbors `(1,1)`, `(1,2)`, `(2,1)` and `(2,2)`
itself safe, and leaves the mines set empty (and no sentence stored). -/
theorem C4_scenario_amended :
    (MinesweeperAI.init 3 3).add_knowledge (2, 2) 0 = some stC4 ∧
      stC4.safes = {(2, 2), (1, 1), (1, 2), (2, 1)} ∧ stC4.mines = ∅ ∧
      stC4.knowledge = [] :=
  ⟨eval_state_eq (by decide), by decide, by decide, by decide⟩

theorem consolidateLoop1Aux_fuel :
    ∀ (f g : Nat) (st : MinesweeperAI) (i : Nat),
      st.knowledge.length - i ≤ f → st.knowledge.length - i ≤ g →
      consolidateLoop1Aux f st i = consolidateLoop1Aux g st i := by
  intro f
  induction f with
  | zero =>
    intro g st i hf hg
    have hge : ¬ i < st.knowledge.length := by omega
    cases g with
    | zero => rfl
    | succ g => simp only [consolidateLoop1Aux, dif_neg hge]
  | succ f ih =>
    intro g st i hf hg
    cases g with
    | zero =>
      have hge : ¬ i < st.knowledge.length := by omega
      simp only [consolidateLoop1Aux, dif_neg hge]
    | succ g =>
      simp only [consolidateLoop1Aux]
      split
      · rename_i hlt
        split
        · split
          · rename_i hm
            have hl := List.length_erase_of_mem hm
            apply ih
            · simp only [MinesweeperAI.removeSentence_knowledge]
              omega
            · simp only [MinesweeperAI.removeSentence_knowledge]
              omega
          · rfl
        · split
          · split
            · rename_i hm
              have hl := List.length_erase_of_mem hm
              simp only [MinesweeperAI.markSafeAll_knowledge_length] at hl
              apply ih
              · simp only [MinesweeperAI.removeSentence_knowledge,
                  MinesweeperAI.markSafeAll_knowledge_length]
                omega
              · simp only [MinesweeperAI.removeSentence_knowledge,
                  MinesweeperAI.markSafeAll_knowledge_length]
                omega
            · rfl
          · split
            · split
              · rename_i hm
                have hl := List.length_erase_of_mem hm
                simp only [MinesweeperAI.markMineAll_knowledge_length] at hl
                apply ih
                · simp only [MinesweeperAI.removeSentence_knowledge,
                    MinesweeperAI.markMineAll_knowledge_length]
                  omega
                · simp only [MinesweeperAI.removeSentence_knowledge,
                    MinesweeperAI.markMineAll_knowledge_length]
                  omega
              · rfl
            · apply ih <;> omega
      · rfl

theorem consolidateLoop2InnerAux_fuel :
    ∀ (f g : Nat) (st : MinesweeperAI) (t : Nat ⊕ Sentence) (idx1 i2 : Nat),
      st.knowledge.length - i2 ≤ f → st.knowledge.length - i2 ≤ g →
      consolidateLoop2InnerAux f st t idx1 i2 = consolidateLoop2InnerAux g st t idx1 i2 := by
  intro f
  induction f with
  | zero =>
    intro g st t idx1 i2 hf hg
    have hge : ¬ i2 < st.knowledge.length := by omega
    cases g with
    | zero => rfl
    | succ g => simp only [consolidateLoop2InnerAux, dif_neg hge]
  | succ f ih =>
    intro g st t idx1 i2 hf hg
    cases g with
    | zero =>
      have hge : ¬ i2 < st.knowledge.length := by omega
      simp only [consolidateLoop2InnerAux, dif_neg hge]
    | succ g =>
      simp only [consolidateLoop2InnerAux]
      split
      · rename_i hlt
        split
        · split
          · split
            · split
              · rename_i hm
                have hl := List.length_erase_of_mem hm
                apply ih
                · simp only [MinesweeperAI.removeSentence_knowledge]
                  omega
                · simp only [MinesweeperAI.removeSentence_knowledge]
                  omega
              · rfl
            · split
              · split
                · rename_i hm
                  have hl := List.length_erase_of_mem hm
                  simp only [MinesweeperAI.markSafeAll_knowledge_length] at hl
                  apply ih
                  · simp only [MinesweeperAI.removeSentence_knowledge,
                      MinesweeperAI.markSafeAll_knowledge_length]
                    omega
                  · simp only [MinesweeperAI.removeSentence_knowledge,
                      MinesweeperAI.markSafeAll_knowledge_length]
                    omega
                · rfl
              · split
                · apply ih
                  · simp only [MinesweeperAI.markMineAll_knowledge_length]
                    omega
                  · simp only [MinesweeperAI.markMineAll_knowledge_length]
                    omega
                · apply ih <;> omega
          · apply ih <;> omega
        · apply ih <;> omega
      · rfl

theorem consolidateLoop2InnerAux_length :
    ∀ (fuel : Nat) (st : MinesweeperAI) (t : Nat ⊕ Sentence) (idx1 i2 : Nat)
      (st' : MinesweeperAI), consolidateLoop2InnerAux fuel st t idx1 i2 = some st' →
      st'.knowledge.length ≤ st.knowledge.length := by
  intro fuel
  induction fuel with
  | zero =>
    intro st t idx1 i2 st' he
    simp only [consolidateLoop2InnerAux, Option.some.injEq] at he
    exact he ▸ le_rfl
  | succ fuel ih =>
    intro st t idx1 i2 st' he
    simp only [consolidateLoop2InnerAux] at he
    split at he
    · split at he
      · split at he
        · split at he
          · split at he
            · rename_i hm
              have hl := List.length_erase_of_mem hm
              have h2 := ih _ _ _ _ _ he
              simp only [MinesweeperAI.removeSentence_knowledge] at h2
              omega
            · exact Option.noConfusion he
          · split at he
            · split at he
              · rename_i hm
                have hl := List.length_erase_of_mem hm
                have h2 := ih _ _ _ _ _ he
                simp only [MinesweeperAI.removeSentence_knowledge,
                  MinesweeperAI.markSafeAll_knowledge_length] at hl h2
                omega
              · exact Option.noConfusion he
            · split at he
              · have h2 := ih _ _ _ _ _ he
                simpa only [MinesweeperAI.markMineAll_knowledge_length] using h2
              · exact ih _ _ _ _ _ he
        · exact ih _ _ _ _ _ he
      · exact ih _ _ _ _ _ he
    · simp only [Option.some.injEq] at he
      exact he ▸ le_rfl

theorem consolidateLoop2Aux_fuel :
    ∀ (f g : Nat) (st : MinesweeperAI) (i1 : Nat),
      st.knowledge.length - i1 ≤ f → st.knowledge.length - i1 ≤ g →
      consolidateLoop2Aux f st i1 = consolidateLoop2Aux g st i1 := by
  intro f
  induction f with
  | zero =>
    intro g st i1 hf hg
    have hge : ¬ i1 < st.knowledge.length := by omega
    cases g with
    | zero => rfl
    | succ g => simp only [consolidateLoop2Aux, if_neg hge]
  | succ f ih =>
    intro g st i1 hf hg
    cases g with
    | zero =>
      have hge : ¬ i1 < st.knowledge.length := by omega
      simp only [consolidateLoop2Aux, if_neg hge]
    | succ g =>
      simp only [consolidateLoop2Aux]
      split
      · rename_i hlt
        split
        · rfl
        · rename_i st1 hinner
          have hlen := consolidateLoop2InnerAux_length _ _ _ _ _ _ hinner
          apply ih <;> omega
      · rfl
